import Mathlib

/-!
Verification of the genotype core of the pydigree repository
(`pydigree/genotypes.py` and `pydigree/ibs.py`).

The Python classes are shallowly embedded as Lean structures and the
methods as executable functions.  Marker indices and span bounds are
natural numbers; integer-coded alleles are `Int`; fallible methods
(Python `raise`) return `Except String`.  The missing allele code of an
integer-coded container is `0`, as in the source
(`missingcode = 0 if np.issubdtype(self.dtype, np.integer) else ""`).
-/

/-- Embeds `InheritanceSpan` from `genotypes.py`: an immutable record
{ancestor individual, chromosome index, haplotype index, start marker,
stop marker}.  Ancestor individuals are identified by a natural number. -/
structure InheritanceSpan where
  ancestor : Nat
  chromosomeidx : Nat
  haplotype : Nat
  start : Nat
  stop : Nat
deriving DecidableEq

/-- Embeds `InheritanceSpan.contains`: the index falls within this span,
inclusively on both ends (`self.start <= index <= self.stop`). -/
def InheritanceSpan.contains (s : InheritanceSpan) (i : Nat) : Prop :=
  s.start ≤ i ∧ i ≤ s.stop

instance (s : InheritanceSpan) (i : Nat) : Decidable (s.contains i) :=
  inferInstanceAs (Decidable (_ ∧ _))

/-- Embeds `AncestralAllele` from `genotypes.py`: the symbolic placeholder
{ancestor, haplotype} produced when indexing a symbolic container. -/
structure AncestralAllele where
  ancestor : Nat
  haplotype : Nat
deriving DecidableEq

/-- Embeds the `InheritanceSpan.ancestral_allele` property. -/
def InheritanceSpan.ancestral_allele (s : InheritanceSpan) : AncestralAllele :=
  ⟨s.ancestor, s.haplotype⟩

/-- The (ancestor, chromosome index, haplotype) triple through which a
span resolves its ancestral chromosome. -/
def spanKey (s : InheritanceSpan) : Nat × Nat × Nat :=
  (s.ancestor, s.chromosomeidx, s.haplotype)

/-- Embeds `LabelledAlleles` from `genotypes.py`: an ordered sequence of
inheritance spans plus the marker count.  In the source the marker
count comes either from `nmark` or from `chromobj.nmark()`; the
embedding keeps the resolved count directly. -/
structure LabelledAlleles where
  spans : List InheritanceSpan
  nmark : Nat
deriving DecidableEq

/-- Embeds `LabelledAlleles.empty_like`: a container with no spans and the
same marker count. -/
def LabelledAlleles.empty_like (self : LabelledAlleles) : LabelledAlleles :=
  ⟨[], self.nmark⟩

/-- Embeds `LabelledAlleles.__getitem__`: return the `ancestral_allele` of the
first span containing the index, else raise `ValueError`. -/
def LabelledAlleles.getitem (self : LabelledAlleles) (index : Nat) :
    Except String AncestralAllele :=
  match self.spans.find? (fun s => decide (s.contains index)) with
  | some s => .ok s.ancestral_allele
  | none => .error "Index out of bounds"

/-- Embeds `LabelledAlleles.add_span`: the invariant-enforcing append.  Raises
when the new span stops before an existing span stops, when the
sequence is empty and the new span does not start at the origin
(`new_span.start > 0`), or when the sequence is non-empty and the new
span does not start exactly at the previous span stop. -/
def LabelledAlleles.add_span (self : LabelledAlleles) (new_span : InheritanceSpan) :
    Except String LabelledAlleles :=
  if self.spans.any (fun x => decide (new_span.stop < x.stop)) then
    .error "Overwriting not supported for LabelledAlleles"
  else if self.spans.length = 0 ∧ new_span.start > 0 then
    .error "Spans not contiguous"
  else if 0 < self.spans.length ∧
      self.spans.getLast?.map InheritanceSpan.stop ≠ some new_span.start then
    .error "Spans not contiguous"
  else
    .ok { self with spans := self.spans ++ [new_span] }

/-- The scan of `LabelledAlleles.copy_span` over the template spans:
the six interval cases, in the order the source checks them.  Case 5
(`span.contains(copy_stop)` alone) returns immediately after the
append, ending the scan. -/
def copySpanAux (self : LabelledAlleles) (spans : List InheritanceSpan)
    (copy_start copy_stop : Nat) : Except String LabelledAlleles :=
  match spans with
  | [] => .ok self
  | span :: rest =>
    if copy_start > span.stop ∨ copy_stop < span.start then
      -- segments that are not relevant
      copySpanAux self rest copy_start copy_stop
    else if copy_start = span.start ∧ copy_stop = span.stop then
      self.add_span ⟨span.ancestor, span.chromosomeidx, span.haplotype,
          copy_start, copy_stop⟩ >>= fun s2 =>
        copySpanAux s2 rest copy_start copy_stop
    else if span.contains copy_start ∧ span.contains copy_stop then
      self.add_span ⟨span.ancestor, span.chromosomeidx, span.haplotype,
          copy_start, copy_stop⟩ >>= fun s2 =>
        copySpanAux s2 rest copy_start copy_stop
    else if span.contains copy_start then
      self.add_span ⟨span.ancestor, span.chromosomeidx, span.haplotype,
          copy_start, span.stop⟩ >>= fun s2 =>
        copySpanAux s2 rest copy_start copy_stop
    else if span.contains copy_stop then
      -- append the clipped span, then return: the scan ends here
      self.add_span ⟨span.ancestor, span.chromosomeidx, span.haplotype,
          span.start, copy_stop⟩
    else if span.start > copy_start ∧ span.stop < copy_stop then
      self.add_span ⟨span.ancestor, span.chromosomeidx, span.haplotype,
          span.start, span.stop⟩ >>= fun s2 =>
        copySpanAux s2 rest copy_start copy_stop
    else
      .error "Unforseen combination of spans"

/-- Embeds `LabelledAlleles.copy_span`: a `copy_stop` of `None` means the
whole chromosome (`self.nmark`); then scan the template spans.  The
source also rejects a template that is not a `LabelledAlleles`; the
embedding is typed, so that branch is unrepresentable here (it is
modelled at the container level below). -/
def LabelledAlleles.copy_span (self template : LabelledAlleles)
    (copy_start : Nat) (copy_stop : Option Nat) : Except String LabelledAlleles :=
  copySpanAux self template.spans copy_start (copy_stop.getD self.nmark)

/-- Embeds `Alleles.copy_span` from `genotypes.py`
(`self[copy_start:copy_stop] = template[copy_start:copy_stop]`): the
dense, half-open overwrite of a marker range.  Entries of `dest`
outside `[copy_start, copy_stop)` are kept. -/
def listCopySpan (dest src : List Int) (copy_start copy_stop : Nat) : List Int :=
  (List.range dest.length).map fun i =>
    if copy_start ≤ i ∧ i < copy_stop then src.getD i 0 else dest.getD i 0

/-- A concrete or still-symbolic allele container, the two
`AlleleContainer` variants that `delabel` can encounter as an
ancestral chromosome: the dense `Alleles` (a numpy array of integer
allele codes) or a `LabelledAlleles`. -/
inductive Container where
  | dense (values : List Int)
  | labelled (la : LabelledAlleles)
deriving DecidableEq

/-- Embeds `empty_like` of either container variant: `Alleles.empty_like`
returns a zero-filled array of the same length;
`LabelledAlleles.empty_like` returns a spanless symbolic container. -/
def Container.empty_like : Container → Container
  | .dense v => .dense (List.replicate v.length 0)
  | .labelled l => .labelled l.empty_like

/-- Embeds `copy_span` dispatched on the runtime types of destination and
template, as Python method dispatch does it inside `delabel`:
dense from dense is the half-open overwrite; dense from symbolic
evaluates `template[copy_start:copy_stop]`, and
`LabelledAlleles.__getitem__` on a slice object finds no containing
span under Python 2 cross-type ordering, raising `ValueError`;
symbolic from symbolic is the six-case scan; symbolic from dense is
rejected by the `isinstance` check in `LabelledAlleles.copy_span`. -/
def containerCopySpan (dest src : Container) (copy_start copy_stop : Nat) :
    Except String Container :=
  match dest, src with
  | .dense d, .dense s => .ok (.dense (listCopySpan d s copy_start copy_stop))
  | .dense _, .labelled _ => .error "Index out of bounds"
  | .labelled l, .labelled t =>
      (l.copy_span t copy_start (some copy_stop)).map Container.labelled
  | .labelled _, .dense _ =>
      .error "LabelledAlleles can only copy from other LabelledAlleles"

/-- The store that resolves `ancestor.genotypes[chromosomeidx][haplotype]`:
each (ancestor, chromosome index, haplotype) triple owns a container. -/
def Genotypes : Type := Nat → Nat → Nat → Container

/-- Embeds the `InheritanceSpan.ancestral_chromosome` property:
`self.ancestor.genotypes[self.chromosomeidx][self.haplotype]`. -/
def InheritanceSpan.ancestral_chromosome (s : InheritanceSpan) (env : Genotypes) :
    Container :=
  env s.ancestor s.chromosomeidx s.haplotype

/-- Modelled from the spec: `all_same_type(seq, t)` lives in
`pydigree.common`, which is not among the given source files; by its
name and use it checks that every element of `seq` is an instance of
type `t`.  `delabel` calls it as `all_same_type(self.spans,
InheritanceSpan)`, and `self.spans` holds `InheritanceSpan` records
only (every element is built by `InheritanceSpan(...)` in `add_span`,
`founder_chromosome` and `copy_span`), so on every state reachable
through the embedded operations the call returns `True`.  The
embedding types `spans` as `List InheritanceSpan`, making that
outcome definitional. -/
def all_same_type (_spans : List InheritanceSpan) : Bool :=
  true

/-- Embeds `LabelledAlleles.delabel`: when the `all_same_type` guard fails it
raises for a span whose ancestral chromosome is still a
`LabelledAlleles`; otherwise it builds `empty_like()` of the first
ancestral chromosome of the span, folding `copy_span` over all spans.
An empty span sequence hits `self.spans[0]` and raises `IndexError`. -/
def LabelledAlleles.delabel (self : LabelledAlleles) (env : Genotypes) :
    Except String Container :=
  if ¬ all_same_type self.spans ∧ self.spans.any (fun s =>
      match s.ancestral_chromosome env with
      | .labelled _ => true
      | .dense _ => false) then
    .error "Ancestral chromosome has not been delabeled"
  else
    match self.spans with
    | [] => .error "list index out of range"
    | s0 :: _ =>
      self.spans.foldlM
        (fun nc s => containerCopySpan nc (s.ancestral_chromosome env) s.start s.stop)
        (s0.ancestral_chromosome env).empty_like

/-- The dense ancestral chromosome a span resolves to (junk value `[]`
when the resolved container is still symbolic; only used under a
hypothesis that it is dense). -/
def chromList (env : Genotypes) (s : InheritanceSpan) : List Int :=
  match s.ancestral_chromosome env with
  | .dense a => a
  | .labelled _ => []

/-- The all-dense fold that `delabel` performs once every ancestral
chromosome is concrete. -/
def foldDense (env : Genotypes) (spans : List InheritanceSpan) (init : List Int) :
    List Int :=
  spans.foldl (fun a s => listCopySpan a (chromList env s) s.start s.stop) init

/-- A span sequence forms a contiguous chain starting at `p`: each
span starts where the previous one stopped and never goes backwards.
This is the shape `add_span` accepts incrementally. -/
def chainFrom : Nat → List InheritanceSpan → Prop
  | _, [] => True
  | p, s :: rest => s.start = p ∧ s.start ≤ s.stop ∧ chainFrom s.stop rest

/-- A chain whose spans are all non-degenerate (`start < stop`): the
exact-tiling shape of a well-formed source container. -/
def strictChainFrom : Nat → List InheritanceSpan → Prop
  | _, [] => True
  | p, s :: rest => s.start = p ∧ s.start < s.stop ∧ strictChainFrom s.stop rest

/-- The position where a chain beginning at `p` ends. -/
def chainEnd : Nat → List InheritanceSpan → Nat
  | p, [] => p
  | _, s :: rest => chainEnd s.stop rest

instance chainFromDecidable : (p : Nat) → (l : List InheritanceSpan) →
    Decidable (chainFrom p l)
  | _, [] => .isTrue trivial
  | p, s :: rest =>
    have : Decidable (chainFrom s.stop rest) := chainFromDecidable s.stop rest
    decidable_of_iff (s.start = p ∧ s.start ≤ s.stop ∧ chainFrom s.stop rest)
      (by simp [chainFrom])

instance strictChainFromDecidable : (p : Nat) → (l : List InheritanceSpan) →
    Decidable (strictChainFrom p l)
  | _, [] => .isTrue trivial
  | p, s :: rest =>
    have : Decidable (strictChainFrom s.stop rest) := strictChainFromDecidable s.stop rest
    decidable_of_iff (s.start = p ∧ s.start < s.stop ∧ strictChainFrom s.stop rest)
      (by simp [strictChainFrom])

/-- The first span of the sequence whose half-open range
`[start, stop)` covers marker `i`; the dense writes of `delabel` give
marker `i` the value of the chromosome of this span. -/
def coverAt (spans : List InheritanceSpan) (i : Nat) : Option InheritanceSpan :=
  spans.find? (fun s => decide (s.start ≤ i ∧ i < s.stop))

/-- Embeds `ChromosomeTemplate` from `genotypes.py`, restricted to the fields
the verified operations read: the genetic map, the physical map and
the per-marker minor-allele frequencies (a frequency of `-1` is the
unset sentinel that `add_genotype` stores for a missing frequency).
Map positions are modelled as exact integers: `closest_marker` only
compares and subtracts them. -/
structure ChromosomeTemplate where
  genetic_map : List Int
  physical_map : List Int
  frequencies : List ℚ
deriving DecidableEq

/-- Embeds `ChromosomeTemplate.nmark`, that is `len(self.genetic_map)`. -/
def ChromosomeTemplate.nmark (t : ChromosomeTemplate) : Nat :=
  t.genetic_map.length

/-- Embeds `bisect.bisect_right` under its documented precondition that the
list is sorted: the insertion point after every element `≤ x`, that
is, the index of the first element `> x`. -/
def bisect_right : List Int → Int → Nat
  | [], _ => 0
  | v :: rest, x => if x < v then 0 else bisect_right rest x + 1

/-- Python list indexing: non-negative indices within bounds read
directly, negative indices within `[-len, 0)` read from the end, and
anything else raises `IndexError`. -/
def pyGetI (l : List Int) (i : Int) : Except String Int :=
  if 0 ≤ i ∧ i < (l.length : Int) then .ok (l.getD i.toNat 0)
  else if -(l.length : Int) ≤ i ∧ i < 0 then .ok (l.getD (l.length - (-i).toNat) 0)
  else .error "IndexError"

/-- Embeds `ChromosomeTemplate.closest_marker`: choose the map (raising for an
unknown map type), take `left_idx = bisect_right(mp, position) - 1`,
return it when it is the final marker, and otherwise return whichever
of it and its successor is strictly closer to the query (the left one
on a tie).  The index arithmetic is over `Int`, as Python has no
unsigned indices and `left_idx` can be `-1`. -/
def ChromosomeTemplate.closest_marker (t : ChromosomeTemplate) (position : Int)
    (map_type : String) : Except String Int :=
  match (if map_type = "physical" then some t.physical_map
         else if map_type = "genetic" then some t.genetic_map
         else none) with
  | none => .error "Map type must be physical or genetic"
  | some mp =>
    let left_idx : Int := (bisect_right mp position : Int) - 1
    if left_idx = (t.nmark : Int) - 1 then .ok left_idx
    else
      let right_idx : Int := left_idx + 1
      pyGetI mp right_idx >>= fun right_pos =>
        pyGetI mp left_idx >>= fun left_pos =>
          if |right_pos - position| < |left_pos - position| then .ok right_idx
          else .ok left_idx

/-- Embeds `ChromosomeTemplate.linkageequilibrium_chromosome`: raise when any
frequency is negative, else code each marker `2` when its uniform
draw is below the frequency, `1` otherwise.  The `np.random.random`
draws are an explicit argument. -/
def ChromosomeTemplate.linkageequilibrium_chromosome (t : ChromosomeTemplate)
    (draws : List ℚ) : Except String (List Nat) :=
  if t.frequencies.any (fun f => decide (f < 0)) then
    .error "Not all frequencies are specified"
  else
    .ok ((List.range t.nmark).map fun i =>
      if draws.getD i 0 < t.frequencies.getD i 0 then 2 else 1)

/-- Embeds `ChromosomeTemplate.linkageequilibrium_chromosomes`: the batch
form; one row of uniform draws per requested chromosome.  The source
performs no frequency check here. -/
def ChromosomeTemplate.linkageequilibrium_chromosomes (t : ChromosomeTemplate)
    (draws : List (List ℚ)) : List (List Nat) :=
  draws.map fun row =>
    (List.range t.nmark).map fun i =>
      if row.getD i 0 < t.frequencies.getD i 0 then 2 else 1

/-- The dtype-dependent constants of a `SparseAlleles` code type: the
integrality flag (`np.issubdtype(dtype, np.integer)`), the missing
code (`0` or the empty string), the value `np.zeros` entries convert
to under the dtype, and the default reference code (`0` or the
string `"0"`). -/
structure SpDtype (α : Type) where
  isInteger : Bool
  missingcode : α
  zero : α
  refDefault : α

/-- Integer-coded alleles. -/
def intAlleleDtype : SpDtype Int :=
  ⟨true, 0, 0, 0⟩

/-- String-coded alleles (`np.zeros(n, np.uint8).astype` of a string
dtype yields the string `"0"`). -/
def strAlleleDtype : SpDtype String :=
  ⟨false, "", "0", "0"⟩

/-- Embeds `SparseAlleles` from `genotypes.py`: the code dtype, the reference
code, the marker count, the map from marker index to non-reference
allele value, and the indices carrying the missing code. -/
structure SparseAlleles (α : Type) where
  dtype : SpDtype α
  refcode : α
  size : Nat
  non_refalleles : List (Nat × α)
  missingindices : List Nat

/-- Embeds `SparseAlleles.__init__` from a raw per-marker array:
`refcode` defaults by dtype; `_array2nonref` keeps the entries
differing from both the reference code and the missing code;
`_array2missing` records the indices holding the missing code. -/
def sparseOfArray [DecidableEq α] (dt : SpDtype α) (data : List α)
    (refcode : Option α) : SparseAlleles α :=
  let rc := refcode.getD dt.refDefault
  { dtype := dt
    refcode := rc
    size := data.length
    non_refalleles := (List.range data.length).filterMap fun i =>
      if data.getD i rc ≠ rc ∧ data.getD i rc ≠ dt.missingcode then
        some (i, data.getD i rc)
      else none
    missingindices := (List.range data.length).filter fun i =>
      decide (data.getD i dt.missingcode = dt.missingcode) }

/-- Embeds `SparseAlleles.todense`: start from a zero array of the dtype,
write the non-reference entries at their indices, then overwrite the
missing indices with the missing code. -/
def SparseAlleles.todense (s : SparseAlleles α) : List α :=
  let arr := List.replicate s.size s.dtype.zero
  let arr := s.non_refalleles.foldl (fun a p => a.set p.1 p.2) arr
  s.missingindices.foldl (fun a i => a.set i s.dtype.missingcode) arr

/-- Embeds the `SparseAlleles.missing` property: the boolean mask that starts
all-false and is set at each recorded missing index. -/
def SparseAlleles.missing (s : SparseAlleles α) : List Bool :=
  s.missingindices.foldl (fun a i => a.set i true) (List.replicate s.size false)

/-- Embeds `SparseAlleles.empty_like`: raise unless the code dtype is
integral; otherwise rebuild from `np.zeros(nmark) + refcode`, an
array of `size` copies of the reference code. -/
def SparseAlleles.empty_like [DecidableEq α] (s : SparseAlleles α) :
    Except String (SparseAlleles α) :=
  if ¬ s.dtype.isInteger then .error "ValueError"
  else .ok (sparseOfArray s.dtype (List.replicate s.size s.refcode) (some s.refcode))

/-- Embeds `chromwide_ibs` from `ibs.py` over four integer-coded dense
haplotypes: the source builds the four equality masks, writes `1`
over the `ibs1` mask, `2` over the `ibs2` mask and the sentinel over
the missingness mask, in that order, onto a zero array of length
`a.nmark()`; pointwise that is sentinel over 2 over 1 over 0. -/
def chromwide_ibs (a b c d : List Int) (missingval : Nat) : List Nat :=
  (List.range a.length).map fun i =>
    let av := a.getD i 0
    let bv := b.getD i 0
    let cv := c.getD i 0
    let dv := d.getD i 0
    if av = 0 ∨ bv = 0 ∨ cv = 0 ∨ dv = 0 then missingval
    else if (av = cv ∧ bv = dv) ∨ (av = dv ∧ bv = cv) then 2
    else if av = cv ∨ av = dv ∨ bv = cv ∨ bv = dv then 1
    else 0

theorem strictChainFrom_chainFrom {q : Nat} {l : List InheritanceSpan}
    (h : strictChainFrom q l) : chainFrom q l := by
  induction l generalizing q with
  | nil => trivial
  | cons s rest ih =>
    obtain ⟨h1, h2, h3⟩ := h
    exact ⟨h1, Nat.le_of_lt h2, ih h3⟩

theorem chainFrom_le_end {q : Nat} {l : List InheritanceSpan}
    (h : chainFrom q l) : q ≤ chainEnd q l := by
  induction l generalizing q with
  | nil => simp [chainEnd]
  | cons s rest ih =>
    obtain ⟨h1, h2, h3⟩ := h
    have := ih h3
    simp only [chainEnd]
    omega

theorem chain_stop_le {q : Nat} {l : List InheritanceSpan}
    (h : chainFrom q l) {s : InheritanceSpan} (hs : s ∈ l) :
    s.stop ≤ chainEnd q l := by
  induction l generalizing q with
  | nil => cases hs
  | cons t rest ih =>
    obtain ⟨h1, h2, h3⟩ := h
    rcases List.mem_cons.mp hs with rfl | hmem
    · have := chainFrom_le_end h3
      simp only [chainEnd]
      omega
    · simpa only [chainEnd] using ih h3 hmem

theorem chain_getLast_stop {q : Nat} {l : List InheritanceSpan}
    (h : chainFrom q l) (hne : l ≠ []) :
    l.getLast?.map InheritanceSpan.stop = some (chainEnd q l) := by
  induction l generalizing q with
  | nil => cases hne rfl
  | cons s rest ih =>
    obtain ⟨h1, h2, h3⟩ := h
    cases rest with
    | nil => simp [chainEnd]
    | cons t r2 =>
      simpa only [List.getLast?_cons_cons, chainEnd] using ih h3 (by simp)

theorem chainEnd_append {l1 l2 : List InheritanceSpan} {q : Nat} :
    chainEnd q (l1 ++ l2) = chainEnd (chainEnd q l1) l2 := by
  induction l1 generalizing q with
  | nil => simp [chainEnd]
  | cons s rest ih => exact ih

theorem chainFrom_append {q : Nat} {l1 l2 : List InheritanceSpan}
    (h1 : chainFrom q l1) (h2 : chainFrom (chainEnd q l1) l2) :
    chainFrom q (l1 ++ l2) := by
  induction l1 generalizing q with
  | nil => simpa [chainEnd] using h2
  | cons s rest ih =>
    obtain ⟨e1, e2, e3⟩ := h1
    show s.start = q ∧ s.start ≤ s.stop ∧ chainFrom s.stop (rest ++ l2)
    exact ⟨e1, e2, ih e3 (by simpa only [chainEnd] using h2)⟩

theorem add_span_chain_ok (acc : LabelledAlleles) (ns : InheritanceSpan) {q : Nat}
    (hc : chainFrom 0 acc.spans) (he : chainEnd 0 acc.spans = q)
    (hstart : ns.start = q) (hstop : q ≤ ns.stop) :
    acc.add_span ns = .ok ⟨acc.spans ++ [ns], acc.nmark⟩ := by
  have h1 : (acc.spans.any fun x => decide (ns.stop < x.stop)) = false := by
    rw [List.any_eq_false]
    intro x hx
    have := chain_stop_le hc hx
    simp only [decide_eq_true_eq]
    omega
  rcases eq_or_ne acc.spans [] with hemp | hne
  · have hq : q = 0 := by
      rw [hemp] at he
      simpa [chainEnd] using he.symm
    simp [LabelledAlleles.add_span, hemp, hstart, hq]
  · have hlast := chain_getLast_stop hc hne
    rw [he, ← hstart] at hlast
    have hlen : acc.spans.length ≠ 0 := by
      simpa [List.length_eq_zero] using hne
    simp [LabelledAlleles.add_span, h1, hlast, hlen]

theorem chain_coverAt_none_lt {q i : Nat} {l : List InheritanceSpan}
    (h : chainFrom q l) (hi : i < q) : coverAt l i = none := by
  induction l generalizing q with
  | nil => rfl
  | cons s rest ih =>
    obtain ⟨h1, h2, h3⟩ := h
    unfold coverAt
    rw [List.find?_cons_of_neg _ (by simp only [decide_eq_true_eq]; omega)]
    exact ih h3 (by omega)

theorem chain_coverAt_none_ge {q i : Nat} {l : List InheritanceSpan}
    (h : chainFrom q l) (hi : chainEnd q l ≤ i) : coverAt l i = none := by
  induction l generalizing q with
  | nil => rfl
  | cons s rest ih =>
    have hstop : s.stop ≤ chainEnd q (s :: rest) :=
      chain_stop_le h (List.mem_cons_self s rest)
    obtain ⟨h1, h2, h3⟩ := h
    unfold coverAt
    rw [List.find?_cons_of_neg _ (by simp only [decide_eq_true_eq]; omega)]
    exact ih h3 (by simpa only [chainEnd] using hi)

theorem chain_cover_exists {q i : Nat} {l : List InheritanceSpan}
    (h : chainFrom q l) (hq : q ≤ i) (hr : i < chainEnd q l) :
    ∃ s, coverAt l i = some s := by
  induction l generalizing q with
  | nil =>
    simp only [chainEnd] at hr
    omega
  | cons s rest ih =>
    obtain ⟨h1, h2, h3⟩ := h
    by_cases hc : i < s.stop
    · refine ⟨s, ?_⟩
      unfold coverAt
      rw [List.find?_cons_of_pos _ (by simp only [decide_eq_true_eq]; omega)]
    · obtain ⟨t, ht⟩ := ih h3 (by omega) (by simpa only [chainEnd] using hr)
      refine ⟨t, ?_⟩
      unfold coverAt
      rw [List.find?_cons_of_neg _ (by simp only [decide_eq_true_eq]; omega)]
      exact ht

theorem coverAt_append_of_none {i : Nat} {l1 l2 : List InheritanceSpan}
    (h : coverAt l1 i = none) : coverAt (l1 ++ l2) i = coverAt l2 i := by
  induction l1 with
  | nil => rfl
  | cons s rest ih =>
    by_cases hc : s.start ≤ i ∧ i < s.stop
    · exfalso
      unfold coverAt at h
      rw [List.find?_cons_of_pos _ (by simpa using hc)] at h
      cases h
    · unfold coverAt at h ⊢
      rw [List.find?_cons_of_neg _ (by simpa using hc)] at h
      rw [List.cons_append, List.find?_cons_of_neg _ (by simpa using hc)]
      exact ih h

theorem coverAt_append_of_some {i : Nat} {l1 l2 : List InheritanceSpan}
    {s : InheritanceSpan} (h : coverAt l1 i = some s) :
    coverAt (l1 ++ l2) i = some s := by
  induction l1 with
  | nil => cases h
  | cons t rest ih =>
    by_cases hc : t.start ≤ i ∧ i < t.stop
    · unfold coverAt at h ⊢
      rw [List.find?_cons_of_pos _ (by simpa using hc)] at h
      rw [List.cons_append, List.find?_cons_of_pos _ (by simpa using hc)]
      exact h
    · unfold coverAt at h ⊢
      rw [List.find?_cons_of_neg _ (by simpa using hc)] at h
      rw [List.cons_append, List.find?_cons_of_neg _ (by simpa using hc)]
      exact ih h

theorem listCopySpan_length (dest src : List Int) (cs ct : Nat) :
    (listCopySpan dest src cs ct).length = dest.length := by
  simp [listCopySpan]

theorem listCopySpan_getD (dest src : List Int) (cs ct i : Nat)
    (hi : i < dest.length) :
    (listCopySpan dest src cs ct).getD i 0 =
      if cs ≤ i ∧ i < ct then src.getD i 0 else dest.getD i 0 := by
  unfold listCopySpan
  rw [List.getD_eq_getElem?_getD, List.getElem?_map, List.getElem?_range hi]
  simp

theorem foldDense_nil (env : Genotypes) (init : List Int) :
    foldDense env [] init = init :=
  rfl

theorem foldDense_cons (env : Genotypes) (s : InheritanceSpan)
    (rest : List InheritanceSpan) (init : List Int) :
    foldDense env (s :: rest) init =
      foldDense env rest (listCopySpan init (chromList env s) s.start s.stop) :=
  rfl

theorem foldDense_length (env : Genotypes) (spans : List InheritanceSpan)
    (init : List Int) : (foldDense env spans init).length = init.length := by
  induction spans generalizing init with
  | nil => rfl
  | cons s rest ih =>
    rw [foldDense_cons, ih, listCopySpan_length]

theorem foldDense_pointwise {env : Genotypes} {q : Nat}
    {spans : List InheritanceSpan} {init : List Int} {i : Nat}
    (hch : chainFrom q spans) (hi : i < init.length) :
    (foldDense env spans init).getD i 0 =
      match coverAt spans i with
      | some s => (chromList env s).getD i 0
      | none => init.getD i 0 := by
  induction spans generalizing init q with
  | nil => rfl
  | cons s rest ih =>
    obtain ⟨h1, h2, h3⟩ := hch
    rw [foldDense_cons]
    have hlen : i < (listCopySpan init (chromList env s) s.start s.stop).length := by
      rw [listCopySpan_length]
      exact hi
    by_cases hc : s.start ≤ i ∧ i < s.stop
    · have hcov : coverAt (s :: rest) i = some s := by
        unfold coverAt
        rw [List.find?_cons_of_pos _ (by simpa using hc)]
      have hrest : coverAt rest i = none := chain_coverAt_none_lt h3 (by omega)
      rw [ih h3 hlen, hcov, hrest]
      simp only
      rw [listCopySpan_getD _ _ _ _ _ hi, if_pos hc]
    · have hcov : coverAt (s :: rest) i = coverAt rest i := by
        unfold coverAt
        rw [List.find?_cons_of_neg _ (by simpa using hc)]
      rw [ih h3 hlen, hcov]
      cases hrest : coverAt rest i with
      | some t => simp
      | none =>
        simp only
        rw [listCopySpan_getD _ _ _ _ _ hi, if_neg hc]

/-- The fold inside `delabel`, when every ancestral chromosome it
touches is dense, is the dense fold. -/
theorem delabel_foldlM_dense (env : Genotypes) (spans : List InheritanceSpan)
    (a : List Int)
    (hden : ∀ s ∈ spans, ∃ arr, s.ancestral_chromosome env = Container.dense arr) :
    spans.foldlM
        (fun nc s => containerCopySpan nc (s.ancestral_chromosome env) s.start s.stop)
        (Container.dense a) =
      .ok (.dense (foldDense env spans a)) := by
  induction spans generalizing a with
  | nil => rfl
  | cons s rest ih =>
    obtain ⟨arr, harr⟩ := hden s (List.mem_cons_self s rest)
    have hchrom : chromList env s = arr := by
      unfold chromList
      rw [harr]
    rw [List.foldlM_cons, foldDense_cons]
    simp only [harr, containerCopySpan, hchrom]
    exact ih _ (fun t ht => hden t (List.mem_cons_of_mem s ht))

/-- Shows that `delabel`, on a container with at least one span, all of whose
spans resolve to dense ancestral chromosomes, performs the dense fold
from the zero array shaped like the chromosome of the first span. -/
theorem delabel_dense (env : Genotypes) (self : LabelledAlleles)
    (s0 : InheritanceSpan) (rest : List InheritanceSpan) (arr0 : List Int)
    (hspans : self.spans = s0 :: rest)
    (h0 : s0.ancestral_chromosome env = Container.dense arr0)
    (hden : ∀ s ∈ self.spans, ∃ arr, s.ancestral_chromosome env = Container.dense arr) :
    self.delabel env =
      .ok (.dense (foldDense env self.spans (List.replicate arr0.length 0))) := by
  unfold LabelledAlleles.delabel
  rw [if_neg (by simp [all_same_type])]
  rw [hspans]
  simp only [h0, Container.empty_like]
  rw [delabel_foldlM_dense env (s0 :: rest) _ (hspans ▸ hden)]

/-- Equal resolution keys give equal resolved chromosomes. -/
theorem chromList_key {env : Genotypes} {s t : InheritanceSpan}
    (h : spanKey s = spanKey t) : chromList env s = chromList env t := by
  unfold spanKey at h
  obtain ⟨h1, h2, h3⟩ : s.ancestor = t.ancestor ∧ s.chromosomeidx = t.chromosomeidx ∧
      s.haplotype = t.haplotype := by
    simpa [Prod.ext_iff] using h
  unfold chromList InheritanceSpan.ancestral_chromosome
  rw [h1, h2, h3]

theorem except_ok_bind {α β : Type} (a : α) (f : α → Except String β) :
    (Except.ok a : Except String α) >>= f = f a :=
  rfl

theorem chainFrom_singleton {q : Nat} {ns : InheritanceSpan}
    (h1 : ns.start = q) (h2 : ns.start ≤ ns.stop) : chainFrom q [ns] := by
  show ns.start = q ∧ ns.start ≤ ns.stop ∧ chainFrom ns.stop []
  exact ⟨h1, h2, trivial⟩

theorem chainEnd_singleton (q : Nat) (ns : InheritanceSpan) :
    chainEnd q [ns] = ns.stop :=
  rfl

theorem coverAt_cons_of_cover {s : InheritanceSpan} {rest : List InheritanceSpan}
    {i : Nat} (h : s.start ≤ i ∧ i < s.stop) : coverAt (s :: rest) i = some s := by
  unfold coverAt
  rw [List.find?_cons_of_pos _ (by simpa using h)]

theorem coverAt_cons_of_not {s : InheritanceSpan} {rest : List InheritanceSpan}
    {i : Nat} (h : ¬ (s.start ≤ i ∧ i < s.stop)) :
    coverAt (s :: rest) i = coverAt rest i := by
  unfold coverAt
  rw [List.find?_cons_of_neg _ (by simpa using h)]

/-- Prepending one clipped span to the tail of a scan result: the
clipped span carries the key of the template span it was cut from,
lies inside it, and the template span claims no marker at or past the
clip stop that is still below the requested stop. -/
theorem span_extend {s ns : InheritanceSpan} {rest2 more2 : List InheritanceSpan}
    {ct q : Nat}
    (hkey : spanKey ns = spanKey s)
    (hns1 : ns.start = q) (hns2 : q ≤ ns.stop) (hns3 : ns.stop ≤ ct)
    (hsub1 : s.start ≤ ns.start) (hsub2 : ns.stop ≤ s.stop)
    (hnocov : ct ≤ ns.stop ∨ s.stop ≤ ns.stop)
    (hch2 : chainFrom ns.stop more2) (hend2 : chainEnd ns.stop more2 = ct)
    (hkeys2 : ∀ s2 ∈ more2, ∃ t ∈ rest2, spanKey s2 = spanKey t)
    (hcov2 : ∀ i, ns.stop ≤ i → i < ct →
      (coverAt more2 i).map spanKey = (coverAt rest2 i).map spanKey) :
    chainFrom q (ns :: more2) ∧ chainEnd q (ns :: more2) = ct ∧
    (∀ s2 ∈ ns :: more2, ∃ t ∈ s :: rest2, spanKey s2 = spanKey t) ∧
    (∀ i, q ≤ i → i < ct →
      (coverAt (ns :: more2) i).map spanKey = (coverAt (s :: rest2) i).map spanKey) := by
  refine ⟨?_, ?_, ?_, ?_⟩
  · show ns.start = q ∧ ns.start ≤ ns.stop ∧ chainFrom ns.stop more2
    exact ⟨hns1, by omega, hch2⟩
  · show chainEnd ns.stop more2 = ct
    exact hend2
  · intro s2 hs2
    rcases List.mem_cons.mp hs2 with rfl | hmem
    · exact ⟨s, List.mem_cons_self s rest2, hkey⟩
    · obtain ⟨t, ht, hk⟩ := hkeys2 s2 hmem
      exact ⟨t, List.mem_cons_of_mem s ht, hk⟩
  · intro i hiq hict
    by_cases hlt : i < ns.stop
    · rw [coverAt_cons_of_cover ⟨by omega, hlt⟩,
        coverAt_cons_of_cover ⟨by omega, by omega⟩]
      simpa using hkey
    · have hge : s.stop ≤ i := by rcases hnocov with h | h <;> omega
      rw [coverAt_cons_of_not (by omega), coverAt_cons_of_not (by omega)]
      exact hcov2 i (by omega) hict

/-- The behaviour of the `copy_span` scan on a well-formed source: if
the remaining template spans strictly chain from `p` to `N`, the
accumulator chains from the origin to `max cs (min p ct)`, and the
requested range `[cs, ct)` is non-empty and inside the chromosome,
then the scan succeeds and appends a chain reaching exactly `ct`
whose half-open coverage agrees, key for key, with the template. -/
theorem copySpanAux_spec {rest : List InheritanceSpan} {p N cs ct q : Nat}
    {acc : LabelledAlleles}
    (hrest : strictChainFrom p rest) (hN : chainEnd p rest = N)
    (hacc : chainFrom 0 acc.spans) (haccE : chainEnd 0 acc.spans = q)
    (hq : q = max cs (min p ct)) (hcs : cs < ct) (hct : ct ≤ N) :
    ∃ more, copySpanAux acc rest cs ct = .ok ⟨acc.spans ++ more, acc.nmark⟩ ∧
      chainFrom q more ∧ chainEnd q more = ct ∧
      (∀ s2 ∈ more, ∃ t ∈ rest, spanKey s2 = spanKey t) ∧
      (∀ i, q ≤ i → i < ct →
        (coverAt more i).map spanKey = (coverAt rest i).map spanKey) := by
  induction rest generalizing p q acc with
  | nil =>
    have hpN : p = N := hN
    refine ⟨[], by simp [copySpanAux], trivial, ?_, ?_, ?_⟩
    · show q = ct
      omega
    · intro s2 hs2
      cases hs2
    · intro i h1 h2
      rfl
  | cons s rest2 ih =>
    obtain ⟨hsp, hslt, hrest2⟩ := hrest
    have hN2 : chainEnd s.stop rest2 = N := hN
    have hstopN : s.stop ≤ N := by
      have := chainFrom_le_end (strictChainFrom_chainFrom hrest2)
      omega
    simp only [copySpanAux]
    by_cases h1 : cs > s.stop ∨ ct < s.start
    · rw [if_pos h1]
      have hq2 : q = max cs (min s.stop ct) := by
        rcases h1 with h | h <;> omega
      obtain ⟨more, hrun, hch, hend, hkeys, hcov⟩ := ih hrest2 hN2 hacc haccE hq2
      refine ⟨more, hrun, hch, hend, ?_, ?_⟩
      · intro s2 hs2
        obtain ⟨t, ht, hk⟩ := hkeys s2 hs2
        exact ⟨t, List.mem_cons_of_mem s ht, hk⟩
      · intro i hiq hict
        rw [coverAt_cons_of_not (by rcases h1 with h | h <;> omega)]
        exact hcov i hiq hict
    · rw [if_neg h1]
      have hle1 : cs ≤ s.stop := by omega
      have hle2 : s.start ≤ ct := by omega
      by_cases h2 : cs = s.start ∧ ct = s.stop
      · rw [if_pos h2]
        obtain ⟨h2a, h2b⟩ := h2
        have hqv : q = cs := by omega
        have hadd := add_span_chain_ok acc
          ⟨s.ancestor, s.chromosomeidx, s.haplotype, cs, ct⟩ hacc
          (by rw [haccE]; exact hqv) rfl (by show cs ≤ ct; omega)
        rw [hadd, except_ok_bind]
        have hacc2 : chainFrom 0
            (acc.spans ++ [⟨s.ancestor, s.chromosomeidx, s.haplotype, cs, ct⟩]) :=
          chainFrom_append hacc (by
            rw [haccE, hqv]
            exact chainFrom_singleton rfl (by show cs ≤ ct; omega))
        have hacc2E : chainEnd 0
            (acc.spans ++ [⟨s.ancestor, s.chromosomeidx, s.haplotype, cs, ct⟩]) = ct := by
          rw [chainEnd_append, haccE, hqv, chainEnd_singleton]
        have hq2 : ct = max cs (min s.stop ct) := by omega
        obtain ⟨more2, hrun2, hch2, hend2, hkeys2, hcov2⟩ :=
          @ih s.stop ct ⟨acc.spans ++ [⟨s.ancestor, s.chromosomeidx, s.haplotype, cs, ct⟩],
            acc.nmark⟩ hrest2 hN2 hacc2 hacc2E hq2
        obtain ⟨hchF, hendF, hkeysF, hcovF⟩ := @span_extend s
          ⟨s.ancestor, s.chromosomeidx, s.haplotype, cs, ct⟩ rest2 more2 ct q
          rfl (by show cs = q; omega) (by show q ≤ ct; omega)
          (by show ct ≤ ct; omega) (by show s.start ≤ cs; omega)
          (by show ct ≤ s.stop; omega) (Or.inl (by show ct ≤ ct; omega))
          hch2 hend2 hkeys2 hcov2
        refine ⟨⟨s.ancestor, s.chromosomeidx, s.haplotype, cs, ct⟩ :: more2,
          ?_, hchF, hendF, hkeysF, hcovF⟩
        rw [hrun2]
        simp
      · rw [if_neg h2]
        by_cases h3 : s.contains cs ∧ s.contains ct
        · rw [if_pos h3]
          obtain ⟨⟨h3a, h3b⟩, h3c, h3d⟩ :
              (s.start ≤ cs ∧ cs ≤ s.stop) ∧ s.start ≤ ct ∧ ct ≤ s.stop := h3
          have hqv : q = cs := by omega
          have hadd := add_span_chain_ok acc
            ⟨s.ancestor, s.chromosomeidx, s.haplotype, cs, ct⟩ hacc
            (by rw [haccE]; exact hqv) rfl (by show cs ≤ ct; omega)
          rw [hadd, except_ok_bind]
          have hacc2 : chainFrom 0
              (acc.spans ++ [⟨s.ancestor, s.chromosomeidx, s.haplotype, cs, ct⟩]) :=
            chainFrom_append hacc (by
              rw [haccE, hqv]
              exact chainFrom_singleton rfl (by show cs ≤ ct; omega))
          have hacc2E : chainEnd 0
              (acc.spans ++ [⟨s.ancestor, s.chromosomeidx, s.haplotype, cs, ct⟩]) = ct := by
            rw [chainEnd_append, haccE, hqv, chainEnd_singleton]
          have hq2 : ct = max cs (min s.stop ct) := by omega
          obtain ⟨more2, hrun2, hch2, hend2, hkeys2, hcov2⟩ :=
            @ih s.stop ct ⟨acc.spans ++ [⟨s.ancestor, s.chromosomeidx, s.haplotype, cs, ct⟩],
              acc.nmark⟩ hrest2 hN2 hacc2 hacc2E hq2
          obtain ⟨hchF, hendF, hkeysF, hcovF⟩ := @span_extend s
            ⟨s.ancestor, s.chromosomeidx, s.haplotype, cs, ct⟩ rest2 more2 ct q
            rfl (by show cs = q; omega) (by show q ≤ ct; omega)
            (by show ct ≤ ct; omega) (by show s.start ≤ cs; omega)
            (by show ct ≤ s.stop; omega) (Or.inl (by show ct ≤ ct; omega))
            hch2 hend2 hkeys2 hcov2
          refine ⟨⟨s.ancestor, s.chromosomeidx, s.haplotype, cs, ct⟩ :: more2,
            ?_, hchF, hendF, hkeysF, hcovF⟩
          rw [hrun2]
          simp
        · rw [if_neg h3]
          by_cases h4 : s.contains cs
          · rw [if_pos h4]
            have h4u : s.start ≤ cs ∧ cs ≤ s.stop := h4
            obtain ⟨h4a, h4b⟩ := h4u
            have hct2 : s.stop < ct := by
              rcases not_and_or.mp h3 with h | h
              · exact absurd h4 h
              · have h5u : ¬ (s.start ≤ ct ∧ ct ≤ s.stop) := h
                rcases not_and_or.mp h5u with h | h <;> omega
            have hqv : q = cs := by omega
            have hadd := add_span_chain_ok acc
              ⟨s.ancestor, s.chromosomeidx, s.haplotype, cs, s.stop⟩ hacc
              (by rw [haccE]; exact hqv) rfl (by show cs ≤ s.stop; omega)
            rw [hadd, except_ok_bind]
            have hacc2 : chainFrom 0
                (acc.spans ++ [⟨s.ancestor, s.chromosomeidx, s.haplotype, cs, s.stop⟩]) :=
              chainFrom_append hacc (by
                rw [haccE, hqv]
                exact chainFrom_singleton rfl (by show cs ≤ s.stop; omega))
            have hacc2E : chainEnd 0
                (acc.spans ++
                  [⟨s.ancestor, s.chromosomeidx, s.haplotype, cs, s.stop⟩]) = s.stop := by
              rw [chainEnd_append, haccE, hqv, chainEnd_singleton]
            have hq2 : s.stop = max cs (min s.stop ct) := by omega
            obtain ⟨more2, hrun2, hch2, hend2, hkeys2, hcov2⟩ :=
              @ih s.stop s.stop
                ⟨acc.spans ++ [⟨s.ancestor, s.chromosomeidx, s.haplotype, cs, s.stop⟩],
                  acc.nmark⟩ hrest2 hN2 hacc2 hacc2E hq2
            obtain ⟨hchF, hendF, hkeysF, hcovF⟩ := @span_extend s
              ⟨s.ancestor, s.chromosomeidx, s.haplotype, cs, s.stop⟩ rest2 more2 ct q
              rfl (by show cs = q; omega) (by show q ≤ s.stop; omega)
              (by show s.stop ≤ ct; omega) (by show s.start ≤ cs; omega)
              (by show s.stop ≤ s.stop; omega) (Or.inr (by show s.stop ≤ s.stop; omega))
              hch2 hend2 hkeys2 hcov2
            refine ⟨⟨s.ancestor, s.chromosomeidx, s.haplotype, cs, s.stop⟩ :: more2,
              ?_, hchF, hendF, hkeysF, hcovF⟩
            rw [hrun2]
            simp
          · rw [if_neg h4]
            by_cases h5 : s.contains ct
            · rw [if_pos h5]
              have h5u : s.start ≤ ct ∧ ct ≤ s.stop := h5
              obtain ⟨h5a, h5b⟩ := h5u
              have hcslt : cs < s.start := by
                have h4u : ¬ (s.start ≤ cs ∧ cs ≤ s.stop) := h4
                rcases not_and_or.mp h4u with h | h <;> omega
              have hqv : q = s.start := by omega
              have hadd := add_span_chain_ok acc
                ⟨s.ancestor, s.chromosomeidx, s.haplotype, s.start, ct⟩ hacc
                (by rw [haccE]; exact hqv) rfl (by show s.start ≤ ct; omega)
              rw [hadd]
              obtain ⟨hchF, hendF, hkeysF, hcovF⟩ := @span_extend s
                ⟨s.ancestor, s.chromosomeidx, s.haplotype, s.start, ct⟩ rest2 [] ct q
                rfl (by show s.start = q; omega) (by show q ≤ ct; omega)
                (by show ct ≤ ct; omega) (by show s.start ≤ s.start; omega)
                (by show ct ≤ s.stop; omega) (Or.inl (by show ct ≤ ct; omega))
                trivial rfl
                (by intro s2 hs2; cases hs2)
                (by
                  intro i hig hil
                  have hig2 : ct ≤ i := hig
                  exact absurd hil (by omega))
              exact ⟨[⟨s.ancestor, s.chromosomeidx, s.haplotype, s.start, ct⟩],
                rfl, hchF, hendF, hkeysF, hcovF⟩
            · rw [if_neg h5]
              have hA : cs < s.start := by
                have h4u : ¬ (s.start ≤ cs ∧ cs ≤ s.stop) := h4
                rcases not_and_or.mp h4u with h | h <;> omega
              have hB : s.stop < ct := by
                have h5u : ¬ (s.start ≤ ct ∧ ct ≤ s.stop) := h5
                rcases not_and_or.mp h5u with h | h <;> omega
              rw [if_pos ⟨hA, hB⟩]
              have hqv : q = s.start := by omega
              have hadd := add_span_chain_ok acc
                ⟨s.ancestor, s.chromosomeidx, s.haplotype, s.start, s.stop⟩ hacc
                (by rw [haccE]; exact hqv) rfl (by show s.start ≤ s.stop; omega)
              rw [hadd, except_ok_bind]
              have hacc2 : chainFrom 0
                  (acc.spans ++
                    [⟨s.ancestor, s.chromosomeidx, s.haplotype, s.start, s.stop⟩]) :=
                chainFrom_append hacc (by
                  rw [haccE, hqv]
                  exact chainFrom_singleton rfl (by show s.start ≤ s.stop; omega))
              have hacc2E : chainEnd 0
                  (acc.spans ++
                    [⟨s.ancestor, s.chromosomeidx, s.haplotype, s.start, s.stop⟩]) =
                    s.stop := by
                rw [chainEnd_append, haccE, hqv, chainEnd_singleton]
              have hq2 : s.stop = max cs (min s.stop ct) := by omega
              obtain ⟨more2, hrun2, hch2, hend2, hkeys2, hcov2⟩ :=
                @ih s.stop s.stop
                  ⟨acc.spans ++
                    [⟨s.ancestor, s.chromosomeidx, s.haplotype, s.start, s.stop⟩],
                    acc.nmark⟩ hrest2 hN2 hacc2 hacc2E hq2
              obtain ⟨hchF, hendF, hkeysF, hcovF⟩ := @span_extend s
                ⟨s.ancestor, s.chromosomeidx, s.haplotype, s.start, s.stop⟩ rest2 more2 ct q
                rfl (by show s.start = q; omega) (by show q ≤ s.stop; omega)
                (by show s.stop ≤ ct; omega) (by show s.start ≤ s.start; omega)
                (by show s.stop ≤ s.stop; omega)
                (Or.inr (by show s.stop ≤ s.stop; omega))
                hch2 hend2 hkeys2 hcov2
              refine ⟨⟨s.ancestor, s.chromosomeidx, s.haplotype, s.start, s.stop⟩ :: more2,
                ?_, hchF, hendF, hkeysF, hcovF⟩
              rw [hrun2]
              simp

theorem ancestral_chromosome_key {env : Genotypes} {s t : InheritanceSpan}
    (h : spanKey s = spanKey t) :
    s.ancestral_chromosome env = t.ancestral_chromosome env := by
  unfold spanKey at h
  obtain ⟨h1, h2, h3⟩ : s.ancestor = t.ancestor ∧ s.chromosomeidx = t.chromosomeidx ∧
      s.haplotype = t.haplotype := by
    simpa [Prod.ext_iff] using h
  unfold InheritanceSpan.ancestral_chromosome
  rw [h1, h2, h3]

theorem list_eq_of_getD {xs ys : List Int} (hl : xs.length = ys.length)
    (h : ∀ i, i < xs.length → xs.getD i 0 = ys.getD i 0) : xs = ys := by
  apply List.ext_getElem hl
  intro i h1 h2
  have h3 := h i h1
  rwa [List.getD_eq_getElem xs 0 h1, List.getD_eq_getElem ys 0 h2] at h3

/-- The delabel value at a covered marker is the value of the covering
chromosome of the covering key, read through any span list whose coverage agrees
with a reference whose covering span is `t`. -/
theorem foldDense_cover_value {env : Genotypes} {spans src0 : List InheritanceSpan}
    {i N : Nat} {t : InheritanceSpan}
    (hch : chainFrom 0 spans) (hi : i < N)
    (hcovEq : (coverAt spans i).map spanKey = (coverAt src0 i).map spanKey)
    (hsrc : coverAt src0 i = some t) :
    (foldDense env spans (List.replicate N (0 : Int))).getD i 0 =
      (chromList env t).getD i 0 := by
  have h1 := @foldDense_pointwise env 0 spans (List.replicate N (0 : Int)) i hch
    (by simpa using hi)
  rw [hsrc] at hcovEq
  cases hcov : coverAt spans i with
  | none =>
    rw [hcov] at hcovEq
    simp at hcovEq
  | some u =>
    rw [hcov] at hcovEq h1
    have hk : spanKey u = spanKey t := by simpa using hcovEq
    simp only at h1
    rw [h1, chromList_key hk]

/-- C1.  For a source whose spans exactly tile [0, N) and whose
ancestral chromosomes are all concrete (dense, of chromosome length),
copying [0, b) and then [b, N) into an empty symbolic container and
delabeling gives the same concrete container as copying [0, N) once
and delabeling. -/
theorem copy_span_split_delabel_eq (env : Genotypes) (src : LabelledAlleles)
    (N b : Nat)
    (hch : strictChainFrom 0 src.spans) (hend : chainEnd 0 src.spans = N)
    (hconc : ∀ s ∈ src.spans, ∃ arr : List Int,
      s.ancestral_chromosome env = Container.dense arr ∧ arr.length = N)
    (hb0 : 0 < b) (hbN : b < N) :
    ∃ v : List Int,
      (src.empty_like.copy_span src 0 (some b) >>= fun c1 =>
        c1.copy_span src b (some N) >>= fun c2 => c2.delabel env) =
        .ok (.dense v) ∧
      (src.empty_like.copy_span src 0 (some N) >>= fun c =>
        c.delabel env) = .ok (.dense v) := by
  have hchain := strictChainFrom_chainFrom hch
  obtain ⟨m1, hrun1, hch1, hend1, hkeys1, hcov1⟩ :=
    @copySpanAux_spec src.spans 0 N 0 b 0 ⟨[], src.nmark⟩ hch hend trivial rfl
      (by omega) hb0 (by omega)
  obtain ⟨s0, r1, rfl⟩ : ∃ s0 r1, m1 = s0 :: r1 := by
    cases m1 with
    | nil =>
      exfalso
      simp [chainEnd] at hend1
      omega
    | cons a l => exact ⟨a, l, rfl⟩
  obtain ⟨m2, hrun2, hch2, hend2, hkeys2, hcov2⟩ :=
    @copySpanAux_spec src.spans 0 N b N b ⟨s0 :: r1, src.nmark⟩ hch hend hch1 hend1
      (by omega) hbN (le_refl N)
  obtain ⟨m, hrunS, hchS, hendS, hkeysS, hcovS⟩ :=
    @copySpanAux_spec src.spans 0 N 0 N 0 ⟨[], src.nmark⟩ hch hend trivial rfl
      (by omega) (by omega) (le_refl N)
  obtain ⟨w0, rS, rfl⟩ : ∃ w0 rS, m = w0 :: rS := by
    cases m with
    | nil =>
      exfalso
      simp [chainEnd] at hendS
      omega
    | cons a l => exact ⟨a, l, rfl⟩
  have hdenC : ∀ s2 ∈ (s0 :: r1) ++ m2,
      ∃ arr, s2.ancestral_chromosome env = Container.dense arr ∧ arr.length = N := by
    intro s2 hs2
    rcases List.mem_append.mp hs2 with h | h
    · obtain ⟨t, ht, hk⟩ := hkeys1 s2 h
      obtain ⟨arr, ha, hl⟩ := hconc t ht
      exact ⟨arr, by rw [ancestral_chromosome_key hk]; exact ha, hl⟩
    · obtain ⟨t, ht, hk⟩ := hkeys2 s2 h
      obtain ⟨arr, ha, hl⟩ := hconc t ht
      exact ⟨arr, by rw [ancestral_chromosome_key hk]; exact ha, hl⟩
  have hdenS : ∀ s2 ∈ w0 :: rS,
      ∃ arr, s2.ancestral_chromosome env = Container.dense arr ∧ arr.length = N := by
    intro s2 hs2
    obtain ⟨t, ht, hk⟩ := hkeysS s2 hs2
    obtain ⟨arr, ha, hl⟩ := hconc t ht
    exact ⟨arr, by rw [ancestral_chromosome_key hk]; exact ha, hl⟩
  obtain ⟨arr0, ha0, hl0⟩ := hdenC s0 (by simp)
  obtain ⟨arrS, haS, hlS⟩ := hdenS w0 (by simp)
  have hdel2 : (⟨(s0 :: r1) ++ m2, src.nmark⟩ : LabelledAlleles).delabel env =
      .ok (.dense (foldDense env ((s0 :: r1) ++ m2) (List.replicate N (0 : Int)))) := by
    have h := delabel_dense env ⟨(s0 :: r1) ++ m2, src.nmark⟩ s0 (r1 ++ m2) arr0
      (by simp) ha0 (fun s hs => ((hdenC s hs).imp fun arr hh => hh.1))
    rw [hl0] at h
    simpa using h
  have hdelS : (⟨w0 :: rS, src.nmark⟩ : LabelledAlleles).delabel env =
      .ok (.dense (foldDense env (w0 :: rS) (List.replicate N (0 : Int)))) := by
    have h := delabel_dense env ⟨w0 :: rS, src.nmark⟩ w0 rS arrS
      rfl haS (fun s hs => ((hdenS s hs).imp fun arr hh => hh.1))
    rw [hlS] at h
    simpa using h
  have e1 : src.empty_like.copy_span src 0 (some b) = .ok ⟨s0 :: r1, src.nmark⟩ := by
    simpa [LabelledAlleles.copy_span, LabelledAlleles.empty_like] using hrun1
  have e2 : (⟨s0 :: r1, src.nmark⟩ : LabelledAlleles).copy_span src b (some N) =
      .ok ⟨(s0 :: r1) ++ m2, src.nmark⟩ := by
    simpa [LabelledAlleles.copy_span] using hrun2
  have eS : src.empty_like.copy_span src 0 (some N) = .ok ⟨w0 :: rS, src.nmark⟩ := by
    simpa [LabelledAlleles.copy_span, LabelledAlleles.empty_like] using hrunS
  have hch12 : chainFrom 0 ((s0 :: r1) ++ m2) :=
    chainFrom_append hch1 (by rw [hend1]; exact hch2)
  have hv : foldDense env (w0 :: rS) (List.replicate N (0 : Int)) =
      foldDense env ((s0 :: r1) ++ m2) (List.replicate N (0 : Int)) := by
    apply list_eq_of_getD
    · rw [foldDense_length, foldDense_length]
    · intro i hi
      have hiN : i < N := by
        rw [foldDense_length, List.length_replicate] at hi
        exact hi
      obtain ⟨t, htc⟩ := chain_cover_exists hchain (Nat.zero_le i)
        (by rw [hend]; exact hiN)
      have hS := @foldDense_cover_value env (w0 :: rS) src.spans i N t hchS hiN
        (hcovS i (Nat.zero_le i) hiN) htc
      have hcov12 : (coverAt ((s0 :: r1) ++ m2) i).map spanKey =
          (coverAt src.spans i).map spanKey := by
        by_cases hib : i < b
        · have h1 := hcov1 i (Nat.zero_le i) hib
          cases hu : coverAt (s0 :: r1) i with
          | none =>
            rw [hu, htc] at h1
            simp at h1
          | some u =>
            rw [coverAt_append_of_some hu]
            rw [hu] at h1
            exact h1
        · have hnone : coverAt (s0 :: r1) i = none :=
            chain_coverAt_none_ge hch1 (by rw [hend1]; omega)
          rw [coverAt_append_of_none hnone]
          exact hcov2 i (by omega) hiN
      have h2 := @foldDense_cover_value env ((s0 :: r1) ++ m2) src.spans i N t hch12
        hiN hcov12 htc
      rw [hS, h2]
  refine ⟨foldDense env ((s0 :: r1) ++ m2) (List.replicate N (0 : Int)), ?_, ?_⟩
  · simp only [e1, except_ok_bind, e2, hdel2]
  · simp only [eS, except_ok_bind, hdelS, hv]

/-- C2.  When the scan of `copy_span` reaches a template span whose
inclusive interval contains `copy_stop` but not `copy_start`, it
appends the clipped span `[span.start, copy_stop)` and returns at
once: the result does not depend on the remaining template spans, so
every later span — overlapping the requested range or not — is
skipped. -/
theorem copy_span_case5_stops_scan (acc : LabelledAlleles) (s : InheritanceSpan)
    (rest : List InheritanceSpan) (cs ct : Nat)
    (h1 : s.contains ct) (h2 : ¬ s.contains cs) (hcc : cs ≤ ct) :
    copySpanAux acc (s :: rest) cs ct =
      acc.add_span ⟨s.ancestor, s.chromosomeidx, s.haplotype, s.start, ct⟩ := by
  obtain ⟨ha, hb⟩ : s.start ≤ ct ∧ ct ≤ s.stop := h1
  have h2u : ¬ (s.start ≤ cs ∧ cs ≤ s.stop) := h2
  simp only [copySpanAux]
  rw [if_neg (by omega)]
  rw [if_neg (by
    intro hand
    obtain ⟨x, y⟩ := hand
    exact h2u ⟨by omega, by omega⟩)]
  rw [if_neg (fun hand => h2 hand.1)]
  rw [if_neg h2]
  rw [if_pos (show s.contains ct from ⟨ha, hb⟩)]

theorem copy_span_case5_stops_scan_witness :
    copySpanAux ⟨[⟨5, 0, 0, 0, 2⟩], 9⟩ [⟨7, 3, 1, 2, 4⟩, ⟨8, 0, 0, 4, 9⟩] 0 3 =
      LabelledAlleles.add_span ⟨[⟨5, 0, 0, 0, 2⟩], 9⟩ ⟨7, 3, 1, 2, 3⟩ :=
  copy_span_case5_stops_scan ⟨[⟨5, 0, 0, 0, 2⟩], 9⟩ ⟨7, 3, 1, 2, 4⟩
    [⟨8, 0, 0, 4, 9⟩] 0 3 (by decide) (by decide) (by decide)

/-- C3.  `add_span` errors exactly when the new span stops before some
existing span stops, or the sequence is empty and the new span does
not start at 0, or the sequence is non-empty and the new span does
not start at the stop of the last span; in every other case it appends. -/
theorem add_span_spec (L : LabelledAlleles) (ns : InheritanceSpan) :
    ((∃ x ∈ L.spans, ns.stop < x.stop) ∨ (L.spans = [] ∧ ns.start ≠ 0) ∨
        (L.spans ≠ [] ∧ L.spans.getLast?.map InheritanceSpan.stop ≠ some ns.start) →
      ∃ msg, L.add_span ns = .error msg) ∧
    (¬ ((∃ x ∈ L.spans, ns.stop < x.stop) ∨ (L.spans = [] ∧ ns.start ≠ 0) ∨
        (L.spans ≠ [] ∧ L.spans.getLast?.map InheritanceSpan.stop ≠ some ns.start)) →
      L.add_span ns = .ok ⟨L.spans ++ [ns], L.nmark⟩) := by
  constructor
  · intro h
    unfold LabelledAlleles.add_span
    by_cases hA : (L.spans.any fun x => decide (ns.stop < x.stop)) = true
    · rw [if_pos hA]
      exact ⟨_, rfl⟩
    · rw [if_neg hA]
      by_cases hB : L.spans.length = 0 ∧ ns.start > 0
      · rw [if_pos hB]
        exact ⟨_, rfl⟩
      · rw [if_neg hB]
        by_cases hC : 0 < L.spans.length ∧
            L.spans.getLast?.map InheritanceSpan.stop ≠ some ns.start
        · rw [if_pos hC]
          exact ⟨_, rfl⟩
        · exfalso
          rcases h with ⟨x, hx, hlt⟩ | ⟨he, hs⟩ | ⟨hne, hl⟩
          · exact hA (List.any_eq_true.mpr ⟨x, hx, by simpa using hlt⟩)
          · exact hB ⟨by simp [he], by omega⟩
          · exact hC ⟨List.length_pos.mpr hne, hl⟩
  · intro h
    obtain ⟨hA, hBC⟩ := not_or.mp h
    obtain ⟨hB, hC⟩ := not_or.mp hBC
    have hA2 : ¬ (L.spans.any fun x => decide (ns.stop < x.stop)) = true := by
      intro hcon
      exact hA (by simpa using List.any_eq_true.mp hcon)
    have hB2 : ¬ (L.spans.length = 0 ∧ ns.start > 0) := by
      intro hand
      exact hB ⟨List.length_eq_zero.mp hand.1, by omega⟩
    have hC2 : ¬ (0 < L.spans.length ∧
        L.spans.getLast?.map InheritanceSpan.stop ≠ some ns.start) := by
      intro hand
      refine hC ⟨?_, hand.2⟩
      intro he
      rw [he] at hand
      simp at hand
    unfold LabelledAlleles.add_span
    rw [if_neg hA2, if_neg hB2, if_neg hC2]

theorem add_span_spec_witness :
    (∃ msg, (⟨[], 5⟩ : LabelledAlleles).add_span ⟨0, 0, 0, 3, 5⟩ = .error msg) ∧
    (⟨[], 5⟩ : LabelledAlleles).add_span ⟨0, 0, 0, 0, 5⟩ =
      .ok ⟨[⟨0, 0, 0, 0, 5⟩], 5⟩ :=
  ⟨(add_span_spec ⟨[], 5⟩ ⟨0, 0, 0, 3, 5⟩).1 (Or.inr (Or.inl ⟨rfl, by decide⟩)),
   (add_span_spec ⟨[], 5⟩ ⟨0, 0, 0, 0, 5⟩).2 (by decide)⟩

/-- C4 (refutation of the guard).  A container whose only span has an
ancestral chromosome that is itself still a `LabelledAlleles` is delabeled
without any error: `delabel` returns `ok` with a still-symbolic
container, because `all_same_type(self.spans, InheritanceSpan)` is
true on every span list (the spans are `InheritanceSpan` records no
matter what their ancestral chromosomes are), so the intended
"has not been delabeled" branch can never run.  The claim — and the
comment and error message in the source — say this input must fail. -/
theorem delabel_symbolic_ancestor_no_error :
    (LabelledAlleles.mk [⟨0, 0, 0, 0, 3⟩] 3).delabel
        (fun _ _ _ => Container.labelled ⟨[⟨1, 0, 0, 0, 3⟩], 3⟩) =
      .ok (.labelled ⟨[⟨1, 0, 0, 0, 3⟩], 3⟩) := by
  rfl

theorem find?_append_first {α : Type} (p : α → Bool) (pre post : List α) (s : α)
    (hs : p s = true) :
    (∀ t ∈ pre, p t = false) → (pre ++ s :: post).find? p = some s := by
  induction pre with
  | nil =>
    intro _
    rw [List.nil_append, List.find?_cons_of_pos _ hs]
  | cons a l ihp =>
    intro hpre
    rw [List.cons_append, List.find?_cons_of_neg _ (by simp [hpre a (by simp)])]
    exact ihp fun t ht => hpre t (List.mem_cons_of_mem a ht)

/-- C10.  Indexing a `LabelledAlleles` returns the
`{ancestor, haplotype}` placeholder of the first span whose inclusive
interval contains the index, and raises when no span contains it; in
particular any indexing of a spanless container raises. -/
theorem getitem_spec (L : LabelledAlleles) (i : Nat) :
    (L.spans = [] → ∃ msg, L.getitem i = .error msg) ∧
    ((∀ s ∈ L.spans, ¬ s.contains i) → ∃ msg, L.getitem i = .error msg) ∧
    (∀ pre s post, L.spans = pre ++ s :: post → (∀ t ∈ pre, ¬ t.contains i) →
      s.contains i → L.getitem i = .ok ⟨s.ancestor, s.haplotype⟩) := by
  refine ⟨?_, ?_, ?_⟩
  · intro he
    unfold LabelledAlleles.getitem
    rw [he]
    exact ⟨_, rfl⟩
  · intro hall
    unfold LabelledAlleles.getitem
    have hnone : L.spans.find? (fun s => decide (s.contains i)) = none := by
      rw [List.find?_eq_none]
      intro x hx
      simpa using hall x hx
    rw [hnone]
    exact ⟨_, rfl⟩
  · intro pre s post hsp hpre hs
    unfold LabelledAlleles.getitem
    rw [hsp, find?_append_first _ pre post s (by simpa using hs)
      (fun t ht => by simpa using hpre t ht)]
    rfl

theorem getitem_spec_witness :
    (∃ msg, (⟨[], 4⟩ : LabelledAlleles).getitem 2 = .error msg) ∧
    (⟨[⟨3, 0, 1, 0, 2⟩, ⟨4, 0, 0, 2, 5⟩], 6⟩ : LabelledAlleles).getitem 4 =
      .ok ⟨4, 0⟩ :=
  ⟨(getitem_spec ⟨[], 4⟩ 2).1 rfl,
   (getitem_spec ⟨[⟨3, 0, 1, 0, 2⟩, ⟨4, 0, 0, 2, 5⟩], 6⟩ 4).2.2
     [⟨3, 0, 1, 0, 2⟩] ⟨4, 0, 0, 2, 5⟩ [] rfl (by decide) (by decide)⟩

theorem foldl_set_length {α : Type} (l : List (Nat × α)) (arr : List α) :
    (l.foldl (fun a p => a.set p.1 p.2) arr).length = arr.length := by
  induction l generalizing arr with
  | nil => rfl
  | cons p t ihl => rw [List.foldl_cons, ihl, List.length_set]

theorem foldl_setc_length {α : Type} (l : List Nat) (c : α) (arr : List α) :
    (l.foldl (fun a x => a.set x c) arr).length = arr.length := by
  induction l generalizing arr with
  | nil => rfl
  | cons x t ihl => rw [List.foldl_cons, ihl, List.length_set]

theorem foldl_set_getD_ne {α : Type} {l : List (Nat × α)} {arr : List α}
    {j : Nat} {d : α} (h : ∀ p ∈ l, p.1 ≠ j) :
    (l.foldl (fun a p => a.set p.1 p.2) arr).getD j d = arr.getD j d := by
  induction l generalizing arr with
  | nil => rfl
  | cons p t ihl =>
    rw [List.foldl_cons, ihl fun x hx => h x (List.mem_cons_of_mem p hx)]
    rw [List.getD_eq_getElem?_getD, List.getD_eq_getElem?_getD,
      List.getElem?_set_ne (h p (by simp))]

theorem foldl_set_getD_mem {α : Type} {l : List (Nat × α)} {arr : List α}
    {j : Nat} {v d : α}
    (hmem : ∃ p ∈ l, p.1 = j) (hval : ∀ p ∈ l, p.1 = j → p.2 = v)
    (hj : j < arr.length) :
    (l.foldl (fun a p => a.set p.1 p.2) arr).getD j d = v := by
  induction l generalizing arr with
  | nil =>
    obtain ⟨p, hp, _⟩ := hmem
    cases hp
  | cons p t ihl =>
    rw [List.foldl_cons]
    by_cases ht : ∃ x ∈ t, x.1 = j
    · exact ihl ht (fun x hx hxj => hval x (List.mem_cons_of_mem p hx) hxj)
        (by rw [List.length_set]; exact hj)
    · obtain ⟨x, hx, hxj⟩ := hmem
      rcases List.mem_cons.mp hx with rfl | hmemt
      · have hpv : x.2 = v := hval x (by simp) hxj
        subst hxj
        rw [foldl_set_getD_ne fun y hy hyj => ht ⟨y, hy, hyj⟩]
        rw [List.getD_eq_getElem?_getD, List.getElem?_set_self hj]
        simpa using hpv
      · exact absurd ⟨x, hmemt, hxj⟩ ht

theorem foldl_setc_getD_ne {α : Type} {l : List Nat} {arr : List α} {c : α}
    {j : Nat} {d : α} (h : ∀ x ∈ l, x ≠ j) :
    (l.foldl (fun a x => a.set x c) arr).getD j d = arr.getD j d := by
  induction l generalizing arr with
  | nil => rfl
  | cons x t ihl =>
    rw [List.foldl_cons, ihl fun y hy => h y (List.mem_cons_of_mem x hy)]
    rw [List.getD_eq_getElem?_getD, List.getD_eq_getElem?_getD,
      List.getElem?_set_ne (h x (by simp))]

theorem foldl_setc_getD_mem {α : Type} {l : List Nat} {arr : List α} {c : α}
    {j : Nat} {d : α} (hmem : j ∈ l) (hj : j < arr.length) :
    (l.foldl (fun a x => a.set x c) arr).getD j d = c := by
  induction l generalizing arr with
  | nil => cases hmem
  | cons x t ihl =>
    rw [List.foldl_cons]
    by_cases ht : j ∈ t
    · exact ihl ht (by rw [List.length_set]; exact hj)
    · rcases List.mem_cons.mp hmem with rfl | hmemt
      · rw [foldl_setc_getD_ne fun y hy hyj => ht (by rw [← hyj]; exact hy)]
        rw [List.getD_eq_getElem?_getD, List.getElem?_set_self hj]
        rfl
      · exact absurd hmemt ht

/-- C6.  Encoding a dense integer-coded array as a `SparseAlleles`
with the default reference code and densifying again reproduces the
array exactly, including at positions holding the missing code `0`. -/
theorem sparse_todense_roundtrip (data : List Int) :
    (sparseOfArray intAlleleDtype data none).todense = data := by
  have hnr : (sparseOfArray intAlleleDtype data none).non_refalleles =
      (List.range data.length).filterMap fun i =>
        if data.getD i 0 ≠ 0 ∧ data.getD i 0 ≠ 0 then some (i, data.getD i 0)
        else none := rfl
  have hmi : (sparseOfArray intAlleleDtype data none).missingindices =
      (List.range data.length).filter fun i => decide (data.getD i 0 = 0) := rfl
  unfold SparseAlleles.todense
  rw [hnr, hmi]
  apply list_eq_of_getD
  · rw [foldl_setc_length, foldl_set_length]
    simp [sparseOfArray]
  · intro j hj
    have hjlen : j < data.length := by
      rw [foldl_setc_length, foldl_set_length] at hj
      simpa [sparseOfArray] using hj
    have hreplen : j <
        (List.replicate (sparseOfArray intAlleleDtype data none).size
          (sparseOfArray intAlleleDtype data none).dtype.zero).length := by
      simpa [sparseOfArray] using hjlen
    by_cases hz : data.getD j 0 = 0
    · have hjmem : j ∈ (List.range data.length).filter
          fun i => decide (data.getD i 0 = 0) :=
        List.mem_filter.mpr ⟨List.mem_range.mpr hjlen, by simpa using hz⟩
      rw [foldl_setc_getD_mem hjmem (by rw [foldl_set_length]; exact hreplen)]
      exact hz.symm
    · have hnomiss : ∀ x ∈ (List.range data.length).filter
          fun i => decide (data.getD i 0 = 0), x ≠ j := by
        intro x hx hxj
        have hxf := (List.mem_filter.mp hx).2
        rw [hxj] at hxf
        simp only [decide_eq_true_eq] at hxf
        exact hz hxf
      rw [foldl_setc_getD_ne hnomiss]
      have hex : ∃ p ∈ (List.range data.length).filterMap fun i =>
          if data.getD i 0 ≠ 0 ∧ data.getD i 0 ≠ 0 then some (i, data.getD i 0)
          else none, p.1 = j :=
        ⟨(j, data.getD j 0), List.mem_filterMap.mpr
          ⟨j, List.mem_range.mpr hjlen, by rw [if_pos ⟨hz, hz⟩]⟩, rfl⟩
      have hval : ∀ p ∈ (List.range data.length).filterMap fun i =>
          if data.getD i 0 ≠ 0 ∧ data.getD i 0 ≠ 0 then some (i, data.getD i 0)
          else none, p.1 = j → p.2 = data.getD j 0 := by
        intro p hp hpj
        obtain ⟨a, _, hfa⟩ := List.mem_filterMap.mp hp
        by_cases hca : data.getD a 0 ≠ 0 ∧ data.getD a 0 ≠ 0
        · rw [if_pos hca] at hfa
          have := Option.some.inj hfa
          rw [← this] at hpj ⊢
          simpa [hpj] using congrArg (fun z => data.getD z 0) hpj
        · rw [if_neg hca] at hfa
          cases hfa
      rw [foldl_set_getD_mem hex hval hreplen]

theorem getD_replicate_of_lt {α : Type} {n j : Nat} (x d : α) (h : j < n) :
    (List.replicate n x).getD j d = x := by
  rw [List.getD_eq_getElem?_getD, List.getElem?_replicate, if_pos h]
  rfl

/-- C9 (amended).  `empty_like` fails for a non-integral code dtype;
for an integral dtype it returns a sparse container of the same size
with no non-reference entries (every entry is implicitly the
reference code) whose missing-marker set is every marker when the
reference code equals the missing code — as it does for the default
reference code 0 — and empty otherwise. -/
theorem sparse_empty_like_spec {α : Type} [DecidableEq α] (s : SparseAlleles α) :
    (s.dtype.isInteger = false → ∃ msg, s.empty_like = .error msg) ∧
    (s.dtype.isInteger = true → ∃ s2, s.empty_like = .ok s2 ∧
      s2.size = s.size ∧ s2.refcode = s.refcode ∧ s2.non_refalleles = [] ∧
      s2.missingindices =
        (if s.refcode = s.dtype.missingcode then List.range s.size else [])) := by
  constructor
  · intro h
    unfold SparseAlleles.empty_like
    rw [if_pos (by simp [h])]
    exact ⟨_, rfl⟩
  · intro h
    unfold SparseAlleles.empty_like
    rw [if_neg (by simp [h])]
    refine ⟨_, rfl, by simp [sparseOfArray], rfl, ?_, ?_⟩
    · show (List.range (List.replicate s.size s.refcode).length).filterMap _ = []
      rw [List.filterMap_eq_nil_iff]
      intro a ha
      rw [List.length_replicate, List.mem_range] at ha
      rw [if_neg]
      intro hand
      exact hand.1 (getD_replicate_of_lt s.refcode _ ha)
    · show (List.range (List.replicate s.size s.refcode).length).filter _ =
        (if s.refcode = s.dtype.missingcode then List.range s.size else [])
      rw [List.length_replicate]
      by_cases hrm : s.refcode = s.dtype.missingcode
      · rw [if_pos hrm]
        apply List.filter_eq_self.mpr
        intro a ha
        rw [List.mem_range] at ha
        rw [getD_replicate_of_lt s.refcode s.dtype.missingcode ha]
        simpa using hrm
      · rw [if_neg hrm]
        apply List.filter_eq_nil_iff.mpr
        intro a ha
        rw [List.mem_range] at ha
        rw [getD_replicate_of_lt s.refcode s.dtype.missingcode ha]
        simpa using hrm

theorem sparse_empty_like_spec_witness :
    (∃ msg, (sparseOfArray strAlleleDtype ["a"] none).empty_like = .error msg) ∧
    (∃ s2, (sparseOfArray intAlleleDtype [(5 : Int), 2] (some 2)).empty_like =
        .ok s2 ∧
      s2.size = 2 ∧ s2.refcode = 2 ∧ s2.non_refalleles = [] ∧
      s2.missingindices = (if (2 : Int) = 0 then List.range 2 else [])) :=
  ⟨(sparse_empty_like_spec (sparseOfArray strAlleleDtype ["a"] none)).1 rfl,
   (sparse_empty_like_spec (sparseOfArray intAlleleDtype [(5 : Int), 2] (some 2))).2 rfl⟩

/-- C9 (refutation as stated).  With the default integer reference
code 0, `empty_like` reports every marker missing: the rebuilt array
is all reference codes, but the reference code equals the missing
code, so `_array2missing` records every index.  The claim that the
result has no markers reported missing is false at this input. -/
theorem sparse_empty_like_default_marks_all_missing :
    Except.map SparseAlleles.missing
        (sparseOfArray intAlleleDtype [(1 : Int)] none).empty_like = .ok [true] ∧
    Except.map SparseAlleles.missing
        (sparseOfArray intAlleleDtype [(1 : Int)] none).empty_like ≠ .ok [false] := by
  have h1 : Except.map SparseAlleles.missing
      (sparseOfArray intAlleleDtype [(1 : Int)] none).empty_like = .ok [true] := rfl
  refine ⟨h1, ?_⟩
  rw [h1]
  intro h
  have h2 := Except.ok.inj h
  simp at h2

/-- C5.  Per marker, the IBS state is the missingness sentinel
whenever any of the four haplotypes is missing (code 0) there, and
otherwise 2 when both haplotypes match in some orientation, 1 when
any single cross-haplotype equality holds, and 0 when none does. -/
theorem chromwide_ibs_spec (a b c d : List Int) (missingval : Nat) (i : Nat)
    (hi : i < a.length) :
    ((a.getD i 0 = 0 ∨ b.getD i 0 = 0 ∨ c.getD i 0 = 0 ∨ d.getD i 0 = 0) →
      (chromwide_ibs a b c d missingval).getD i 0 = missingval) ∧
    (¬ (a.getD i 0 = 0 ∨ b.getD i 0 = 0 ∨ c.getD i 0 = 0 ∨ d.getD i 0 = 0) →
      (chromwide_ibs a b c d missingval).getD i 0 =
        if (a.getD i 0 = c.getD i 0 ∧ b.getD i 0 = d.getD i 0) ∨
            (a.getD i 0 = d.getD i 0 ∧ b.getD i 0 = c.getD i 0) then 2
        else if a.getD i 0 = c.getD i 0 ∨ a.getD i 0 = d.getD i 0 ∨
            b.getD i 0 = c.getD i 0 ∨ b.getD i 0 = d.getD i 0 then 1
        else 0) := by
  have hp : (chromwide_ibs a b c d missingval).getD i 0 =
      (if a.getD i 0 = 0 ∨ b.getD i 0 = 0 ∨ c.getD i 0 = 0 ∨ d.getD i 0 = 0 then
        missingval
      else if (a.getD i 0 = c.getD i 0 ∧ b.getD i 0 = d.getD i 0) ∨
          (a.getD i 0 = d.getD i 0 ∧ b.getD i 0 = c.getD i 0) then 2
      else if a.getD i 0 = c.getD i 0 ∨ a.getD i 0 = d.getD i 0 ∨
          b.getD i 0 = c.getD i 0 ∨ b.getD i 0 = d.getD i 0 then 1
      else 0) := by
    unfold chromwide_ibs
    rw [List.getD_eq_getElem?_getD, List.getElem?_map, List.getElem?_range hi]
    rfl
  constructor
  · intro hm
    rw [hp, if_pos hm]
  · intro hm
    rw [hp, if_neg hm]

theorem chromwide_ibs_spec_witness :
    (chromwide_ibs [0] [1] [1] [1] 64).getD 0 0 = 64 ∧
    (chromwide_ibs [1] [1] [1] [2] 64).getD 0 0 =
      (if ((1 : Int) = 1 ∧ (1 : Int) = 2) ∨ ((1 : Int) = 2 ∧ (1 : Int) = 1) then 2
       else if (1 : Int) = 1 ∨ (1 : Int) = 2 ∨ (1 : Int) = 1 ∨ (1 : Int) = 2 then 1
       else 0) :=
  ⟨(chromwide_ibs_spec [0] [1] [1] [1] 64 0 (by decide)).1 (by decide),
   (chromwide_ibs_spec [1] [1] [1] [2] 64 0 (by decide)).2 (by decide)⟩

theorem bisect_right_nil (x : Int) : bisect_right [] x = 0 :=
  rfl

theorem bisect_right_cons (v : Int) (rest : List Int) (x : Int) :
    bisect_right (v :: rest) x = if x < v then 0 else bisect_right rest x + 1 :=
  rfl

/-- On a strictly sorted list, `bisect_right` of a query lying in
`[mp[k], mp[k+1])` (or past the last element) is `k + 1`. -/
theorem bisect_right_eq {mp : List Int} {p : Int} {k : Nat}
    (hs : mp.Pairwise (· < ·)) (hk : k < mp.length) (hle : mp.getD k 0 ≤ p)
    (hgt : k + 1 < mp.length → p < mp.getD (k + 1) 0) :
    bisect_right mp p = k + 1 := by
  induction mp generalizing k with
  | nil => exact absurd hk (Nat.not_lt_zero k)
  | cons v rest ih =>
    obtain ⟨hv, hrest⟩ := List.pairwise_cons.mp hs
    cases k with
    | zero =>
      have hvp : v ≤ p := by simpa using hle
      rw [bisect_right_cons, if_neg (by omega)]
      have hz : bisect_right rest p = 0 := by
        cases rest with
        | nil => rfl
        | cons w r2 =>
          have hpw : p < w := by
            simpa using hgt (by simp only [List.length_cons]; omega)
          rw [bisect_right_cons, if_pos hpw]
      rw [hz]
    | succ j =>
      have hjlen : j < rest.length := by
        simpa [List.length_cons] using hk
      have hvj : v < rest.getD j 0 := by
        apply hv
        rw [List.getD_eq_getElem rest 0 hjlen]
        exact List.getElem_mem hjlen
      have hle2 : rest.getD j 0 ≤ p := hle
      rw [bisect_right_cons, if_neg (by omega)]
      rw [ih hrest hjlen hle2 fun hh =>
        hgt (by simp only [List.length_cons]; omega)]

theorem pyGetI_ofNat (l : List Int) (j : Nat) (h : j < l.length) :
    pyGetI l (j : Int) = .ok (l.getD j 0) := by
  unfold pyGetI
  rw [if_pos ⟨by omega, by exact_mod_cast h⟩]
  simp

theorem closest_marker_core {t : ChromosomeTemplate} {p : Int} {mt : String}
    {mp : List Int} {k : Nat}
    (hmp : (if mt = "physical" then some t.physical_map
            else if mt = "genetic" then some t.genetic_map else none) = some mp)
    (hnm : t.nmark = mp.length)
    (hsort : mp.Pairwise (· < ·))
    (hk : k < mp.length) (hle : mp.getD k 0 ≤ p)
    (hgt : k + 1 < mp.length → p < mp.getD (k + 1) 0) :
    t.closest_marker p mt =
      .ok (if k + 1 = mp.length then (k : Int)
        else if |mp.getD (k + 1) 0 - p| < |mp.getD k 0 - p| then (k : Int) + 1
        else (k : Int)) := by
  unfold ChromosomeTemplate.closest_marker
  rw [hmp]
  simp only
  rw [bisect_right_eq hsort hk hle hgt]
  have e1 : ((k + 1 : Nat) : Int) - 1 = (k : Int) := by push_cast; ring
  rw [e1]
  by_cases hfin : k + 1 = mp.length
  · rw [if_pos (by rw [hnm]; omega), if_pos hfin]
  · rw [if_neg (by rw [hnm]; omega), if_neg hfin]
    have hk1 : k + 1 < mp.length := by omega
    have hr : pyGetI mp ((k : Int) + 1) = .ok (mp.getD (k + 1) 0) := by
      rw [show (k : Int) + 1 = ((k + 1 : Nat) : Int) by push_cast; ring]
      exact pyGetI_ofNat mp (k + 1) hk1
    simp only [hr, pyGetI_ofNat mp k hk, except_ok_bind]
    by_cases habs : |mp.getD (k + 1) 0 - p| < |mp.getD k 0 - p|
    · simp only [if_pos habs]
    · simp only [if_neg habs]

/-- C7.  `closest_marker` raises for an unknown map type; on a
strictly sorted map whose last position not above the query is at
index `k`, it returns `k` when `k` is the final marker and otherwise
whichever of `k` and `k + 1` is strictly closer, preferring `k` on a
tie; in particular a query equal to marker `k` returns `k`. -/
theorem closest_marker_spec (t : ChromosomeTemplate) (p : Int) (mt : String)
    (mp : List Int) (k : Nat) :
    (mt ≠ "physical" ∧ mt ≠ "genetic" →
      ∃ msg, t.closest_marker p mt = .error msg) ∧
    ((mt = "physical" ∧ mp = t.physical_map ∨ mt = "genetic" ∧ mp = t.genetic_map) →
      t.physical_map.length = t.genetic_map.length →
      mp.Pairwise (· < ·) → k < mp.length → mp.getD k 0 ≤ p →
      (k + 1 < mp.length → p < mp.getD (k + 1) 0) →
      (t.closest_marker p mt =
        .ok (if k + 1 = mp.length then (k : Int)
          else if |mp.getD (k + 1) 0 - p| < |mp.getD k 0 - p| then (k : Int) + 1
          else (k : Int))) ∧
      (mp.getD k 0 = p → t.closest_marker p mt = .ok (k : Int))) := by
  constructor
  · intro h
    unfold ChromosomeTemplate.closest_marker
    rw [if_neg h.1, if_neg h.2]
    exact ⟨_, rfl⟩
  · intro hsel hlen hsort hk hle hgt
    have hmp : (if mt = "physical" then some t.physical_map
        else if mt = "genetic" then some t.genetic_map else none) = some mp := by
      rcases hsel with ⟨rfl, rfl⟩ | ⟨rfl, rfl⟩ <;> simp
    have hnm : t.nmark = mp.length := by
      rcases hsel with ⟨h, rfl⟩ | ⟨h, rfl⟩
      · exact hlen.symm
      · rfl
    have hmain := closest_marker_core hmp hnm hsort hk hle hgt
    refine ⟨hmain, ?_⟩
    intro heq
    rw [hmain]
    by_cases hfin : k + 1 = mp.length
    · rw [if_pos hfin]
    · rw [if_neg hfin,
        if_neg (by rw [heq, sub_self, abs_zero]; exact not_lt.mpr (abs_nonneg _))]

theorem closest_marker_spec_witness :
    (∃ msg, (⟨[0, 10, 20], [0, 10, 20], []⟩ : ChromosomeTemplate).closest_marker
        5 "neither" = .error msg) ∧
    (⟨[0, 10, 20], [0, 10, 20], []⟩ : ChromosomeTemplate).closest_marker
        12 "physical" =
      .ok (if 1 + 1 = ([0, 10, 20] : List Int).length then (1 : Int)
        else if |([0, 10, 20] : List Int).getD 2 0 - 12| <
            |([0, 10, 20] : List Int).getD 1 0 - 12| then (1 : Int) + 1
        else (1 : Int)) ∧
    (⟨[0, 10, 20], [0, 10, 20], []⟩ : ChromosomeTemplate).closest_marker
        10 "genetic" = .ok 1 :=
  ⟨(closest_marker_spec ⟨[0, 10, 20], [0, 10, 20], []⟩ 5 "neither" [] 0).1
     ⟨by decide, by decide⟩,
   ((closest_marker_spec ⟨[0, 10, 20], [0, 10, 20], []⟩ 12 "physical"
       [0, 10, 20] 1).2 (Or.inl ⟨rfl, rfl⟩) rfl (by decide) (by decide)
       (by decide) (by decide)).1,
   ((closest_marker_spec ⟨[0, 10, 20], [0, 10, 20], []⟩ 10 "genetic"
       [0, 10, 20] 1).2 (Or.inr ⟨rfl, rfl⟩) rfl (by decide) (by decide)
       (by decide) (by decide)).2 (by decide)⟩

/-- C8 (refutation of the batch half).  With an unset (negative)
frequency, the batch form returns normally — no error is raised — and
codes the marker 1, because a uniform draw is never below a negative
frequency; only the single-chromosome form checks and raises. -/
theorem linkageequilibrium_chromosomes_no_unset_check :
    (⟨[100], [100], [-1]⟩ : ChromosomeTemplate).linkageequilibrium_chromosomes
        [[0]] = [[1]] ∧
    (∃ msg, (⟨[100], [100], [-1]⟩ : ChromosomeTemplate).linkageequilibrium_chromosome
        [0] = .error msg) := by
  exact ⟨by decide, ⟨_, rfl⟩⟩

/-- C8 (amended).  The single form raises when any frequency is
negative and otherwise codes marker `i` as 2 exactly when draw `i` is
below frequency `i`; the batch form performs no frequency check and
codes marker `i` of chromosome `j` as 2 exactly when its draw is
below frequency `i`, so an unset (negative) frequency always yields
code 1 there. -/
theorem linkageequilibrium_spec (t : ChromosomeTemplate) (draws : List ℚ)
    (drawsM : List (List ℚ)) (j i : Nat) :
    ((∃ f ∈ t.frequencies, f < 0) →
      ∃ msg, t.linkageequilibrium_chromosome draws = .error msg) ∧
    ((∀ f ∈ t.frequencies, 0 ≤ f) →
      t.linkageequilibrium_chromosome draws =
        .ok ((List.range t.nmark).map fun i2 =>
          if draws.getD i2 0 < t.frequencies.getD i2 0 then 2 else 1)) ∧
    (j < drawsM.length → i < t.nmark →
      ((t.linkageequilibrium_chromosomes drawsM).getD j []).getD i 0 =
        if (drawsM.getD j []).getD i 0 < t.frequencies.getD i 0 then 2 else 1) ∧
    (j < drawsM.length → i < t.nmark → t.frequencies.getD i 0 < 0 →
      0 ≤ (drawsM.getD j []).getD i 0 →
      ((t.linkageequilibrium_chromosomes drawsM).getD j []).getD i 0 = 1) := by
  have hbatch : j < drawsM.length → i < t.nmark →
      ((t.linkageequilibrium_chromosomes drawsM).getD j []).getD i 0 =
        if (drawsM.getD j []).getD i 0 < t.frequencies.getD i 0 then 2 else 1 := by
    intro hj hi
    unfold ChromosomeTemplate.linkageequilibrium_chromosomes
    rw [List.getD_eq_getElem _ [] (by simpa using hj), List.getElem_map]
    rw [List.getD_eq_getElem?_getD, List.getElem?_map, List.getElem?_range hi]
    rw [List.getD_eq_getElem drawsM [] hj]
    simp
  refine ⟨?_, ?_, hbatch, ?_⟩
  · intro h
    obtain ⟨f, hf, hneg⟩ := h
    unfold ChromosomeTemplate.linkageequilibrium_chromosome
    rw [if_pos (List.any_eq_true.mpr ⟨f, hf, by simpa using hneg⟩)]
    exact ⟨_, rfl⟩
  · intro h
    unfold ChromosomeTemplate.linkageequilibrium_chromosome
    rw [if_neg]
    intro hcon
    obtain ⟨f, hf, hlt⟩ := List.any_eq_true.mp hcon
    simp only [decide_eq_true_eq] at hlt
    exact absurd hlt (not_lt.mpr (h f hf))
  · intro hj hi hneg hpos
    rw [hbatch hj hi, if_neg (not_lt.mpr (le_of_lt (lt_of_lt_of_le hneg hpos)))]

theorem linkageequilibrium_spec_witness :
    (∃ msg, (⟨[100], [100], [-1]⟩ : ChromosomeTemplate).linkageequilibrium_chromosome
        [0] = .error msg) ∧
    (⟨[100], [100], [1]⟩ : ChromosomeTemplate).linkageequilibrium_chromosome [0] =
      .ok [2] ∧
    (((⟨[100], [100], [1]⟩ : ChromosomeTemplate).linkageequilibrium_chromosomes
        [[0]]).getD 0 []).getD 0 0 = 2 ∧
    (((⟨[100], [100], [-1]⟩ : ChromosomeTemplate).linkageequilibrium_chromosomes
        [[0]]).getD 0 []).getD 0 0 = 1 :=
  ⟨(linkageequilibrium_spec ⟨[100], [100], [-1]⟩ [0] [[0]] 0 0).1
     ⟨-1, by decide, by decide⟩,
   (linkageequilibrium_spec ⟨[100], [100], [1]⟩ [0] [[0]] 0 0).2.1 (by decide),
   (linkageequilibrium_spec ⟨[100], [100], [1]⟩ [0] [[0]] 0 0).2.2.1
     (by decide) (by decide),
   (linkageequilibrium_spec ⟨[100], [100], [-1]⟩ [0] [[0]] 0 0).2.2.2
     (by decide) (by decide) (by decide) (by decide)⟩

theorem copy_span_split_delabel_eq_witness :
    ∃ v : List Int,
      ((LabelledAlleles.mk [⟨0, 0, 0, 0, 1⟩, ⟨1, 0, 0, 1, 2⟩] 2).empty_like.copy_span
          (LabelledAlleles.mk [⟨0, 0, 0, 0, 1⟩, ⟨1, 0, 0, 1, 2⟩] 2) 0 (some 1) >>=
        fun c1 =>
          c1.copy_span (LabelledAlleles.mk [⟨0, 0, 0, 0, 1⟩, ⟨1, 0, 0, 1, 2⟩] 2)
            1 (some 2) >>= fun c2 =>
          c2.delabel fun a _ _ =>
            if a = 0 then Container.dense [10, 20] else Container.dense [30, 40]) =
        .ok (.dense v) ∧
      ((LabelledAlleles.mk [⟨0, 0, 0, 0, 1⟩, ⟨1, 0, 0, 1, 2⟩] 2).empty_like.copy_span
          (LabelledAlleles.mk [⟨0, 0, 0, 0, 1⟩, ⟨1, 0, 0, 1, 2⟩] 2) 0 (some 2) >>=
        fun c =>
          c.delabel fun a _ _ =>
            if a = 0 then Container.dense [10, 20] else Container.dense [30, 40]) =
        .ok (.dense v) :=
  copy_span_split_delabel_eq
    (fun a _ _ =>
      if a = 0 then Container.dense [10, 20] else Container.dense [30, 40])
    (LabelledAlleles.mk [⟨0, 0, 0, 0, 1⟩, ⟨1, 0, 0, 1, 2⟩] 2) 2 1
    (by decide) (by decide)
    (by
      intro s hs
      simp only [List.mem_cons, List.not_mem_nil, or_false] at hs
      rcases hs with rfl | rfl
      · exact ⟨[10, 20], rfl, rfl⟩
      · exact ⟨[30, 40], rfl, rfl⟩)
    (by decide) (by decide)
